import Mathlib

/-!
# Verification of the zero-contrib Apollo config-center subscriber

A shallow embedding of the `configcenter/apollo` package: the snapshot data
model, the format serializer (json / yaml / properties), the scalar coercion
`toString`, configuration validation, `buildApolloConfig`, and the subscriber
state machine (`loadValue`, `Value`, `AddListener`, `handleConfigChange`).

The package's core implementation file is not present in the source tree
(only its tests, examples and README are), so the core operations are
modelled from the specification, faithful to its words and checked against
the behaviour the unit and integration tests pin down.
-/

namespace ZeroApollo

/-- A configuration value as held in the store's local cache: absent/null,
string, number, boolean, or a nested mapping / sequence. Numbers are
modelled as integers (the spec's "canonical literal text" of a number). -/
inductive ConfVal where
  | null : ConfVal
  | str (s : String) : ConfVal
  | num (n : Int) : ConfVal
  | bool (b : Bool) : ConfVal
  | obj (fields : List (String × ConfVal)) : ConfVal
  | arr (elems : List ConfVal) : ConfVal
deriving Repr, Inhabited

/-- The decimal digit character for a digit value `d < 10`. -/
def digitChar (d : Nat) : Char := Char.ofNat (48 + d)

/-- The numeric value of a decimal digit character. -/
def digitVal (c : Char) : Nat := c.toNat - 48

/-- Decimal digit characters of `n`, most significant first; the fuel makes
the recursion structural so the kernel can evaluate it. Empty for `n = 0`. -/
def digitsRec : Nat → Nat → List Char
  | 0, _ => []
  | fuel + 1, n => if n = 0 then [] else digitsRec fuel (n / 10) ++ [digitChar (n % 10)]

/-- Decimal text of a natural number. -/
def natToChars (n : Nat) : List Char :=
  if n = 0 then ['0'] else digitsRec (n + 1) n

/-- Decimal text of an integer: the canonical literal, as Go's `fmt` and
`encoding/json` render integral numbers. -/
def encodeInt (n : Int) : List Char :=
  if n < 0 then '-' :: natToChars n.natAbs else natToChars n.natAbs

/-- JSON string-body escaping: quote and backslash are escaped with a
backslash, every other character stands for itself. -/
def escapeChars : List Char → List Char
  | [] => []
  | c :: cs => if c = '"' ∨ c = '\\' then '\\' :: c :: escapeChars cs else c :: escapeChars cs

mutual

/-- Modelled from the spec: JSON encoding of a value ("encode the full
mapping as a structured document (JSON object)"; "nested mapping/sequence →
its JSON-encoded form"), standing in for Go's `json.Marshal`. -/
def encodeVal : ConfVal → List Char
  | .null => ['n', 'u', 'l', 'l']
  | .str s => '"' :: (escapeChars s.data ++ ['"'])
  | .num n => encodeInt n
  | .bool true => ['t', 'r', 'u', 'e']
  | .bool false => ['f', 'a', 'l', 's', 'e']
  | .obj fs => '{' :: (encodeFields fs ++ ['}'])
  | .arr es => '[' :: (encodeElems es ++ [']'])

/-- JSON text of the fields of an object, comma separated, without the
surrounding braces. -/
def encodeFields : List (String × ConfVal) → List Char
  | [] => []
  | [(k, v)] => '"' :: (escapeChars k.data ++ '"' :: ':' :: encodeVal v)
  | (k, v) :: f :: fs =>
      '"' :: (escapeChars k.data ++ '"' :: ':' :: (encodeVal v ++ ',' :: encodeFields (f :: fs)))

/-- JSON text of the elements of an array, comma separated, without the
surrounding brackets. -/
def encodeElems : List ConfVal → List Char
  | [] => []
  | [v] => encodeVal v
  | v :: e :: es => encodeVal v ++ ',' :: encodeElems (e :: es)

end

/-- JSON text of a value, as a string. -/
def jsonEncode (v : ConfVal) : String := String.mk (encodeVal v)


/-- Modelled from the spec: the scalar coercion `toString` of the missing
implementation file ("absent/null → empty string; string → itself;
number/boolean → canonical literal text; nested mapping/sequence → its
JSON-encoded form"), pinned down by the package's `TestToString` cases. -/
def toString : ConfVal → String
  | .null => ""
  | .str s => s
  | .num n => String.mk (encodeInt n)
  | .bool b => Bool.rec "false" "true" b
  | .obj fs => jsonEncode (.obj fs)
  | .arr es => jsonEncode (.arr es)

/-- A snapshot of a namespace: the key/value pairs visible in the store's
cache at one point in time (a finite map, iteration order insignificant). -/
abbrev Snapshot : Type := List (String × ConfVal)

/-- The `key=value` lines of the properties rendering, one per pair. -/
def propertiesLines (S : Snapshot) : List String :=
  S.map fun p => p.1 ++ "=" ++ toString p.2

/-- Join lines with a single newline between consecutive lines. -/
def joinLines : List String → String
  | [] => ""
  | [l] => l
  | l :: l' :: ls => l ++ "\n" ++ joinLines (l' :: ls)

/-- Modelled from the spec: the `properties` serialization of a namespace
snapshot ("emit one `key=value` line per pair; line order is not
contractually fixed"). -/
def serializeProperties (S : Snapshot) : String :=
  joinLines (propertiesLines S)

/-- Modelled from the spec: the `yaml` serialization of a namespace snapshot
("encode the full mapping as a ... YAML mapping"). -/
def serializeYaml (S : Snapshot) : String :=
  joinLines (S.map fun p => p.1 ++ ": " ++ toString p.2)

/-- Modelled from the spec: namespace-mode serialization dispatch on the
output format selector ∈ \x7bjson, yaml, properties\x7d, json being the
documented default. -/
def serializeSnapshot (format : String) (S : Snapshot) : String :=
  if format = "properties" then serializeProperties S
  else if format = "yaml" then serializeYaml S
  else jsonEncode (.obj S)

/-- The construction-time configuration surface of the subscriber, mirroring
the Go struct `ApolloConf` field for field (string fields default to empty,
booleans to false, as Go zero values do). -/
structure ApolloConf where
  appID : String
  cluster : String
  namespaceName : String
  ip : String
  metaAddr : String
  secret : String
  isBackupConfig : Bool
  backupPath : String
  mustStart : Bool
  format : String
  key : String
deriving Repr, DecidableEq

/-- The all-zero-values configuration, as Go's `ApolloConf{}` literal. -/
def emptyConf : ApolloConf :=
  ⟨"", "", "", "", "", "", false, "", false, "", ""⟩

/-- The subscriber's error taxonomy. -/
inductive SubErr where
  | configInvalid : SubErr
  | keyNotFound : SubErr
  | noSnapshotYet : SubErr
deriving Repr, DecidableEq

/-- Modelled from the spec: `Validate` fails construction when a required
identity/address field (AppID or MetaAddr) is missing, and succeeds
otherwise, as `TestApolloConf_Validate` pins down. -/
def ApolloConf.Validate (c : ApolloConf) : Except SubErr Unit :=
  if c.appID = "" then .error .configInvalid
  else if c.metaAddr = "" then .error .configInvalid
  else .ok ()

/-- The configuration struct handed to the upstream agollo client. -/
structure AgolloConfig where
  appID : String
  cluster : String
  namespaceName : String
  ip : String
  secret : String
  isBackupConfig : Bool
  backupConfigPath : String
  mustStart : Bool
deriving Repr, DecidableEq

/-- Modelled from the spec: `buildApolloConfig` forwards the configuration
to the store collaborator unmodified, with the client's address (`IP`)
taken from `conf.IP` when set and from `conf.MetaAddr` otherwise, as
`TestBuildApolloConfig_IPOverride` and `TestBuildApolloConfig_MetaAddrAsDefault`
pin down. -/
def buildApolloConfig (conf : ApolloConf) : AgolloConfig :=
  { appID := conf.appID
    cluster := conf.cluster
    namespaceName := conf.namespaceName
    ip := if conf.ip = "" then conf.metaAddr else conf.ip
    secret := conf.secret
    isBackupConfig := conf.isBackupConfig
    backupConfigPath := conf.backupPath
    mustStart := conf.mustStart }

/-- The store's local cache, read by extraction: a finite map from keys to
values. Enumerating it yields the namespace snapshot. -/
abbrev Cache : Type := List (String × ConfVal)

/-- Point read from the cache: `get(key) -> value | NotFound`. -/
def Cache.get (cache : Cache) (k : String) : Option ConfVal :=
  match cache with
  | [] => none
  | (k', v) :: rest => if k' = k then some v else Cache.get rest k

/-- Full enumeration of the cache: the namespace snapshot. -/
def Cache.snapshot (cache : Cache) : Snapshot := cache

/-- Modelled from the spec: one extraction + serialization pass.
Single-key mode (non-empty `Key` selector) fetches that key's scalar from
the cache, absence being a `KeyNotFound` error with no default substituted;
namespace mode enumerates the cache and serializes the full snapshot in the
configured format. -/
def loadValue (conf : ApolloConf) (cache : Cache) : Except SubErr String :=
  if conf.key ≠ "" then
    match cache.get conf.key with
    | none => .error .keyNotFound
    | some v => .ok (toString v)
  else .ok (serializeSnapshot conf.format cache.snapshot)

/-- The subscriber state: configuration, the store handle's cache view, the
current SerializedValue (none before any load has succeeded), and the
registered listeners. Listener callbacks are identified by opaque tokens
(numbers), recorded in registration order. -/
structure Subscriber where
  conf : ApolloConf
  cache : Cache
  value : Option String
  listeners : List Nat

/-- Modelled from the spec: `Value() → string | NoSnapshotYet` returns the
current SerializedValue; the error is only possible before any load has
ever succeeded. -/
def Subscriber.Value (s : Subscriber) : Except SubErr String :=
  match s.value with
  | some v => .ok v
  | none => .error .noSnapshotYet

/-- Modelled from the spec: `AddListener` appends the callback to the
registry; no removal operation. -/
def Subscriber.AddListener (s : Subscriber) (id : Nat) : Subscriber :=
  { s with listeners := s.listeners ++ [id] }

/-- The upstream store mutated its cache: the subscriber's view of the
store state changes (this is the collaborator's doing, not the core's). -/
def Subscriber.setCache (s : Subscriber) (c : Cache) : Subscriber :=
  { s with cache := c }

/-- Modelled from the spec: the change-event handler re-runs extraction and
serialization against the current store state, swaps the stored value and
invokes every registered listener in registration order on success, and on
failure absorbs the error, retaining the previous value and invoking no
listener. The second component lists the listener tokens invoked, in
invocation order. -/
def Subscriber.handleConfigChange (s : Subscriber) : Subscriber × List Nat :=
  match loadValue s.conf s.cache with
  | .ok v => ({ s with value := some v }, s.listeners)
  | .error _ => (s, [])

/-- Modelled from the spec: construction validates the configuration, then
performs the first extraction + serialization synchronously; a first-load
failure is a construction failure and no partially-initialized subscriber
is returned. -/
def newApolloSubscriber (conf : ApolloConf) (cache : Cache) : Except SubErr Subscriber :=
  match conf.Validate with
  | .error e => .error e
  | .ok _ =>
    match loadValue conf cache with
    | .error e => .error e
    | .ok v => .ok { conf := conf, cache := cache, value := some v, listeners := [] }

/-- An event in a subscriber's life after construction: either the upstream
store reports a change with the cache now in state `c`, or a listener is
registered. -/
inductive SubOp where
  | change (c : Cache) : SubOp
  | addListener (id : Nat) : SubOp

/-- Apply one event to the subscriber state. -/
def applyOp (s : Subscriber) (op : SubOp) : Subscriber :=
  match op with
  | .change c => ((s.setCache c).handleConfigChange).1
  | .addListener id => s.AddListener id

/-- Apply a sequence of events in order. -/
def runOps (s : Subscriber) (ops : List SubOp) : Subscriber :=
  ops.foldl applyOp s

/-- The input after a number must not continue with a digit (in the emitted
grammar it is a separator, a closing bracket, or the end of the text). -/
def HeadNotDigit : List Char → Prop
  | [] => True
  | c :: _ => c.isDigit = false

/-! ## Size accounting for the parser fuel -/

mutual

/-- Number of parser steps a value costs. -/
def sizeVal : ConfVal → Nat
  | .null => 1
  | .str _ => 1
  | .num _ => 1
  | .bool _ => 1
  | .obj fs => sizeFields fs + 1
  | .arr es => sizeElems es + 1

/-- Number of parser steps a field list costs. -/
def sizeFields : List (String × ConfVal) → Nat
  | [] => 0
  | (_, v) :: fs => sizeVal v + sizeFields fs + 1

/-- Number of parser steps an element list costs. -/
def sizeElems : List ConfVal → Nat
  | [] => 0
  | v :: es => sizeVal v + sizeElems es + 1

end

/-- Split text into lines at newline characters. -/
def splitNl : List Char → List (List Char)
  | [] => [[]]
  | c :: cs =>
    if c = '\n' then [] :: splitNl cs
    else
      match splitNl cs with
      | [] => [[c]]
      | l :: ls => (c :: l) :: ls

/-- The lines of a string. -/
def splitLinesStr (s : String) : List String :=
  (splitNl s.data).map String.mk

/-! ## A JSON reader

The round-trip property compares the serializer against an independent
deserializer (standing in for `json.Unmarshal` on the consumer side): a
recursive-descent reader of the JSON grammar the serializer emits. -/

/-- Read a run of leading decimal digits, accumulating their value;
stops at the first non-digit. -/
def parseNatAcc : List Char → Nat → Nat × List Char
  | [], acc => (acc, [])
  | c :: cs, acc =>
    if c.isDigit then parseNatAcc cs (acc * 10 + digitVal c) else (acc, c :: cs)

/-- Read a JSON number (an optional minus sign followed by at least one
digit). -/
def parseNum : List Char → Option (Int × List Char)
  | [] => none
  | c :: cs =>
    if c = '-' then
      match cs with
      | [] => none
      | d :: _ =>
        if d.isDigit then
          match parseNatAcc cs 0 with
          | (m, rest) => some (-(m : Int), rest)
        else none
    else if c.isDigit then
      match parseNatAcc (c :: cs) 0 with
      | (m, rest) => some ((m : Int), rest)
    else none

/-- Read a JSON string body up to and including the closing quote,
undoing the backslash escapes. -/
def parseStrBody : List Char → Option (List Char × List Char)
  | [] => none
  | c :: cs =>
    if c = '\\' then
      match cs with
      | [] => none
      | d :: ds => (parseStrBody ds).map fun p => (d :: p.1, p.2)
    else if c = '"' then some ([], cs)
    else (parseStrBody cs).map fun p => (c :: p.1, p.2)

mutual

/-- Read one JSON value, dispatching on the first character. The fuel
bounds the recursion depth through nested values. -/
def parseVal : Nat → List Char → Option (ConfVal × List Char)
  | 0, _ => none
  | fuel + 1, input =>
    match input with
    | [] => none
    | c :: cs =>
      if c = '{' then
        match cs with
        | [] => none
        | d :: ds =>
          if d = '}' then some (.obj [], ds)
          else (parseFields fuel (d :: ds)).map fun p => (.obj p.1, p.2)
      else if c = '[' then
        match cs with
        | [] => none
        | d :: ds =>
          if d = ']' then some (.arr [], ds)
          else (parseElems fuel (d :: ds)).map fun p => (.arr p.1, p.2)
      else if c = '"' then
        (parseStrBody cs).map fun p => (.str (String.mk p.1), p.2)
      else if c = 'n' then
        match cs with
        | c1 :: c2 :: c3 :: rest =>
          if c1 = 'u' ∧ c2 = 'l' ∧ c3 = 'l' then some (.null, rest) else none
        | _ => none
      else if c = 't' then
        match cs with
        | c1 :: c2 :: c3 :: rest =>
          if c1 = 'r' ∧ c2 = 'u' ∧ c3 = 'e' then some (.bool true, rest) else none
        | _ => none
      else if c = 'f' then
        match cs with
        | c1 :: c2 :: c3 :: c4 :: rest =>
          if c1 = 'a' ∧ c2 = 'l' ∧ c3 = 's' ∧ c4 = 'e' then some (.bool false, rest) else none
        | _ => none
      else (parseNum (c :: cs)).map fun p => (.num p.1, p.2)

/-- Read a non-empty comma-separated field list followed by the closing
brace, which is consumed. -/
def parseFields : Nat → List Char → Option (List (String × ConfVal) × List Char)
  | 0, _ => none
  | fuel + 1, input =>
    match input with
    | [] => none
    | c :: cs =>
      if c = '"' then
        match parseStrBody cs with
        | none => none
        | some (kcs, rest1) =>
          match rest1 with
          | [] => none
          | c1 :: rest2 =>
            if c1 = ':' then
              match parseVal fuel rest2 with
              | none => none
              | some (v, rest3) =>
                match rest3 with
                | [] => none
                | c2 :: rest4 =>
                  if c2 = ',' then
                    (parseFields fuel rest4).map fun p => ((String.mk kcs, v) :: p.1, p.2)
                  else if c2 = '}' then some ([(String.mk kcs, v)], rest4)
                  else none
            else none
      else none

/-- Read a non-empty comma-separated element list followed by the closing
bracket, which is consumed. -/
def parseElems : Nat → List Char → Option (List ConfVal × List Char)
  | 0, _ => none
  | fuel + 1, input =>
    match parseVal fuel input with
    | none => none
    | some (v, rest1) =>
      match rest1 with
      | [] => none
      | c :: rest2 =>
        if c = ',' then (parseElems fuel rest2).map fun p => (v :: p.1, p.2)
        else if c = ']' then some ([v], rest2)
        else none

end

/-- Read a whole JSON document: one value, with nothing left over. -/
def deserializeJSON (s : String) : Option ConfVal :=
  match parseVal (s.data.length + 1) s.data with
  | some (v, []) => some v
  | _ => none



/-! ## Concrete fixtures drawn from the package's tests -/

/-- The namespace-mode JSON configuration of the integration tests. -/
def jsonConf : ApolloConf :=
  { emptyConf with
    appID := "test-app", metaAddr := "http://localhost:8080",
    namespaceName := "application.json", format := "json" }

/-- The single-key configuration watching a key that is absent. -/
def missingKeyConf : ApolloConf :=
  { emptyConf with
    appID := "test-app", metaAddr := "http://localhost:8080",
    namespaceName := "application", key := "non.existent.key" }

/-- The properties-format configuration of the integration tests. -/
def propsConf : ApolloConf :=
  { emptyConf with
    appID := "test-app", metaAddr := "http://localhost:8080",
    namespaceName := "application.properties", format := "properties" }

/-- A configuration with both required identity/address fields set. -/
def validConf : ApolloConf :=
  { emptyConf with
    appID := "test-app", metaAddr := "http://localhost:8080" }

/-- Store cache before the simulated change of the hot-reload test. -/
def cacheBefore : Cache := [("feature.enabled", ConfVal.bool true)]

/-- Store cache after the simulated change of the hot-reload test. -/
def cacheAfter : Cache :=
  [("feature.enabled", ConfVal.bool false), ("feature.new", ConfVal.str "added")]

/-- Store cache of the properties-format test. -/
def propsCache : Cache :=
  [("server.port", ConfVal.str "8080"), ("server.host", ConfVal.str "localhost")]

/-! ## Digit and number lemmas -/

example : jsonEncode (.obj [("key", .str "value")]) = "\x7b\"key\":\"value\"\x7d" := by
  simp [jsonEncode, encodeVal, encodeFields, escapeChars]

example : jsonEncode (.num 123) = "123" := by
  simp [jsonEncode, encodeVal, encodeInt, natToChars, digitsRec, digitChar]

example : deserializeJSON "\x7b\"key\":\"value\"\x7d" = some (.obj [("key", .str "value")]) := by
  simp [deserializeJSON, parseVal, parseFields, parseStrBody, String.mk]



/-- Everything needed about a single decimal digit character, checked by
computation over the ten digits. -/
theorem digit_facts : ∀ d < 10, digitVal (digitChar d) = d
    ∧ (digitChar d).isDigit = true
    ∧ digitChar d ≠ ']' ∧ digitChar d ≠ '-' ∧ digitChar d ≠ '{' ∧ digitChar d ≠ '['
    ∧ digitChar d ≠ '"' ∧ digitChar d ≠ 'n' ∧ digitChar d ≠ 't' ∧ digitChar d ≠ 'f' := by
  decide

/-- Every character `digitsRec` emits is a decimal digit character. -/
theorem digitsRec_good :
    ∀ fuel n c, c ∈ digitsRec fuel n → ∃ d, d < 10 ∧ c = digitChar d := by
  intro fuel
  induction fuel with
  | zero => simp [digitsRec]
  | succ fuel ih =>
    intro n c hc
    by_cases hn : n = 0
    · simp [digitsRec, hn] at hc
    · rw [digitsRec, if_neg hn] at hc
      rcases List.mem_append.mp hc with h | h
      · exact ih _ _ h
      · refine ⟨n % 10, Nat.mod_lt _ (by norm_num), ?_⟩
        simpa using h

/-- Reading a digit character back gives its value. -/
theorem digitVal_digitChar (d : Nat) (hd : d < 10) : digitVal (digitChar d) = d :=
  (digit_facts d hd).1

/-- Folding the digit-accumulation step over the digits of `n` recovers `n`,
shifted past the accumulator. -/
theorem foldl_digitsRec (fuel : Nat) : ∀ n acc, n < fuel →
    (digitsRec fuel n).foldl (fun a c => a * 10 + digitVal c) acc
      = acc * 10 ^ (digitsRec fuel n).length + n := by
  induction fuel with
  | zero => intro n _ h; exact absurd h (Nat.not_lt_zero n)
  | succ fuel ih =>
    intro n acc h
    by_cases hn : n = 0
    · subst hn; simp [digitsRec]
    · have hdiv : n / 10 < fuel := by
        have h1 : n / 10 < n := Nat.div_lt_self (Nat.pos_of_ne_zero hn) (by norm_num)
        omega
      rw [digitsRec, if_neg hn, List.foldl_append, List.length_append,
        ih _ _ hdiv]
      simp only [List.foldl_cons, List.foldl_nil, List.length_cons, List.length_nil,
        digitVal_digitChar _ (Nat.mod_lt _ (by norm_num : 0 < 10))]
      rw [pow_succ]
      generalize (10 : Nat) ^ (digitsRec fuel (n / 10)).length = P
      ring_nf
      omega

/-- Reading digits stops immediately on input that does not begin with a
digit. -/
theorem parseNatAcc_stop (rest : List Char) (acc : Nat) (h : HeadNotDigit rest) :
    parseNatAcc rest acc = (acc, rest) := by
  cases rest with
  | nil => simp [parseNatAcc]
  | cons c cs =>
    simp only [HeadNotDigit] at h
    simp [parseNatAcc, h]

/-- Reading digits consumes exactly a run of digits and folds up their
value. -/
theorem parseNatAcc_digits :
    ∀ ds rest acc, (∀ c ∈ ds, c.isDigit = true) → HeadNotDigit rest →
      parseNatAcc (ds ++ rest) acc
        = (ds.foldl (fun a c => a * 10 + digitVal c) acc, rest) := by
  intro ds
  induction ds with
  | nil => intro rest acc _ h; simpa using parseNatAcc_stop rest acc h
  | cons c cs ih =>
    intro rest acc hd h
    simp only [List.cons_append, parseNatAcc]
    rw [if_pos (hd c (by simp))]
    simp [ih rest _ (fun x hx => hd x (by simp [hx])) h]

/-- The decimal text of a natural number begins with a digit character. -/
theorem digitsRec_shape :
    ∀ fuel n, digitsRec fuel n = [] ∨ ∃ d tl, d < 10 ∧ digitsRec fuel n = digitChar d :: tl := by
  intro fuel
  induction fuel with
  | zero => intro n; left; rfl
  | succ fuel ih =>
    intro n
    by_cases hn : n = 0
    · left; simp [digitsRec, hn]
    · right
      rw [digitsRec, if_neg hn]
      rcases ih (n / 10) with h | ⟨d, tl, hd, h⟩
      · exact ⟨n % 10, [], Nat.mod_lt _ (by norm_num), by rw [h]; rfl⟩
      · exact ⟨d, tl ++ [digitChar (n % 10)], hd, by rw [h]; rfl⟩

/-- `natToChars n` is a digit character followed by more text. -/
theorem natToChars_shape (n : Nat) :
    ∃ d tl, d < 10 ∧ natToChars n = digitChar d :: tl := by
  by_cases hn : n = 0
  · exact ⟨0, [], by norm_num, by subst hn; rw [natToChars]; decide⟩
  · rw [natToChars, if_neg hn]
    rcases digitsRec_shape (n + 1) n with h | h
    · rw [digitsRec, if_neg hn] at h
      exact absurd h (by simp)
    · exact h

/-- Reading back the decimal text of a natural number. -/
theorem parseNat_natToChars (n : Nat) (rest : List Char) (h : HeadNotDigit rest) :
    parseNatAcc (natToChars n ++ rest) 0 = (n, rest) := by
  by_cases hn : n = 0
  · subst hn
    rw [natToChars]
    simp only [if_pos rfl, List.cons_append, List.nil_append, parseNatAcc]
    rw [if_pos (by decide)]
    have : digitVal '0' = 0 := by decide
    rw [this]
    simpa using parseNatAcc_stop rest 0 h
  · have hds : ∀ c ∈ digitsRec (n + 1) n, c.isDigit = true := by
      intro c hc
      obtain ⟨d, hd, rfl⟩ := digitsRec_good (n + 1) n c hc
      exact (digit_facts d hd).2.1
    rw [natToChars, if_neg hn, parseNatAcc_digits _ _ _ hds h,
      foldl_digitsRec (n + 1) n 0 (Nat.lt_succ_self n)]
    simp

/-- Reading back the decimal text of an integer. -/
theorem parseNum_encodeInt (n : Int) (rest : List Char) (h : HeadNotDigit rest) :
    parseNum (encodeInt n ++ rest) = some (n, rest) := by
  obtain ⟨d, tl, hd, htl⟩ := natToChars_shape n.natAbs
  have hparse := parseNat_natToChars n.natAbs rest h
  rw [htl, List.cons_append] at hparse
  by_cases hneg : n < 0
  · rw [encodeInt, if_pos hneg, htl, List.cons_append, List.cons_append]
    simp only [parseNum, reduceIte, (digit_facts d hd).2.1, hparse]
    have habs : -(↑n.natAbs : Int) = n := by omega
    rw [habs]
  · rw [encodeInt, if_neg hneg, htl, List.cons_append]
    simp only [parseNum, if_neg (digit_facts d hd).2.2.2.1,
      (digit_facts d hd).2.1, reduceIte, hparse]
    have habs : (↑n.natAbs : Int) = n := by omega
    rw [habs]

/-! ## String lemmas -/

/-- Reading a string body undoes the escaping and stops at the closing
quote. -/
theorem parseStrBody_escape (l : List Char) (rest : List Char) :
    parseStrBody (escapeChars l ++ '"' :: rest) = some (l, rest) := by
  induction l with
  | nil =>
    rw [escapeChars, List.nil_append, parseStrBody.eq_def]
    simp
  | cons c cs ih =>
    by_cases hc : c = '"' ∨ c = '\\'
    · rw [escapeChars, if_pos hc]
      simp only [List.cons_append]
      rw [parseStrBody.eq_def]
      simp [ih]
    · rw [escapeChars, if_neg hc]
      push_neg at hc
      simp only [List.cons_append]
      rw [parseStrBody.eq_def]
      simp [hc.1, hc.2, ih]


/-- Every value costs at least one step. -/
theorem sizeVal_pos (v : ConfVal) : 1 ≤ sizeVal v := by
  cases v <;> simp [sizeVal]

/-- The emitted text of a value is nonempty and never begins with a closing
bracket (so a non-empty array is not mistaken for an empty one). -/
theorem encodeVal_shape (v : ConfVal) :
    ∃ c tl, encodeVal v = c :: tl ∧ c ≠ ']' := by
  cases v with
  | null => exact ⟨'n', _, rfl, by decide⟩
  | str s => exact ⟨'"', _, rfl, by decide⟩
  | num n =>
    obtain ⟨d, tl, hd, htl⟩ := natToChars_shape n.natAbs
    by_cases hneg : n < 0
    · exact ⟨'-', _, by rw [encodeVal, encodeInt, if_pos hneg], by decide⟩
    · exact ⟨digitChar d, tl, by rw [encodeVal, encodeInt, if_neg hneg, htl],
        (digit_facts d hd).2.2.1⟩
  | bool b =>
    cases b with
    | false => exact ⟨'f', _, rfl, by decide⟩
    | true => exact ⟨'t', _, rfl, by decide⟩
  | obj fs => exact ⟨'{', _, rfl, by decide⟩
  | arr es => exact ⟨'[', _, rfl, by decide⟩

mutual

/-- A value's step cost is bounded by the length of its text, so text
length suffices as parser fuel. -/
theorem sizeVal_le_length : ∀ v : ConfVal, sizeVal v ≤ (encodeVal v).length
  | .null => by simp [sizeVal, encodeVal]
  | .str s => by simp [sizeVal, encodeVal]
  | .num n => by
    obtain ⟨d, tl, hd, htl⟩ := natToChars_shape n.natAbs
    by_cases hneg : n < 0 <;>
      simp [sizeVal, encodeVal, encodeInt, hneg, htl]
  | .bool b => by cases b <;> simp [sizeVal, encodeVal]
  | .obj fs => by
    have := sizeFields_le_length fs
    simp only [sizeVal, encodeVal, List.length_cons, List.length_append]
    omega
  | .arr es => by
    have := sizeElems_le_length es
    simp only [sizeVal, encodeVal, List.length_cons, List.length_append]
    omega

/-- A field list's step cost is bounded by the length of its text plus the
closing brace. -/
theorem sizeFields_le_length : ∀ fs : List (String × ConfVal),
    sizeFields fs ≤ (encodeFields fs).length + 1
  | [] => by simp [sizeFields, encodeFields]
  | [(k, v)] => by
    have := sizeVal_le_length v
    simp only [sizeFields, sizeVal, encodeFields, List.length_cons, List.length_append]
    omega
  | (k, v) :: f :: fs => by
    have h1 := sizeVal_le_length v
    have h2 := sizeFields_le_length (f :: fs)
    rw [sizeFields, encodeFields]
    simp only [List.length_cons, List.length_append]
    omega

/-- An element list's step cost is bounded by the length of its text plus
the closing bracket. -/
theorem sizeElems_le_length : ∀ es : List ConfVal,
    sizeElems es ≤ (encodeElems es).length + 1
  | [] => by simp [sizeElems, encodeElems]
  | [v] => by
    have h1 := sizeVal_le_length v
    rw [sizeElems, sizeElems, encodeElems]
    omega
  | v :: e :: es => by
    have h1 := sizeVal_le_length v
    have h2 := sizeElems_le_length (e :: es)
    rw [sizeElems, encodeElems]
    simp only [List.length_cons, List.length_append]
    omega

end

/-! ## The reader reads back what the serializer writes -/

/-- A digit character is not one of the structural characters the value
dispatcher tests first. -/
theorem digitChar_not_special : ∀ d < 10, digitChar d ≠ '{' ∧ digitChar d ≠ '['
    ∧ digitChar d ≠ '"' ∧ digitChar d ≠ 'n' ∧ digitChar d ≠ 't' ∧ digitChar d ≠ 'f' := by
  decide

/-- Cons form of `HeadNotDigit`. -/
theorem headNotDigit_cons (c : Char) (rest : List Char) (h : c.isDigit = false) :
    HeadNotDigit (c :: rest) := h

/-- The text of a non-empty field list begins with a quote. -/
theorem encodeFields_shape (f : String × ConfVal) (fs : List (String × ConfVal)) :
    ∃ tl, encodeFields (f :: fs) = '"' :: tl := by
  obtain ⟨k, v⟩ := f
  cases fs with
  | nil => exact ⟨_, rfl⟩
  | cons f' fs' => exact ⟨_, rfl⟩

/-- The text of a non-empty element list begins with the first element's
first character, which is not a closing bracket. -/
theorem encodeElems_shape (e : ConfVal) (es : List ConfVal) :
    ∃ c tl, encodeElems (e :: es) = c :: tl ∧ c ≠ ']' := by
  obtain ⟨c, tl, hc, hne⟩ := encodeVal_shape e
  cases es with
  | nil => exact ⟨c, tl, by rw [encodeElems, hc], hne⟩
  | cons e' es' =>
    exact ⟨c, tl ++ ',' :: encodeElems (e' :: es'), by rw [encodeElems, hc]; rfl, hne⟩

/-- With enough fuel, reading the emitted text of a value (followed by
anything that does not begin with a digit) gives back exactly that value
and the following text; likewise for non-empty field and element lists
followed by their closing bracket. -/
theorem parse_encode : ∀ fuel : Nat,
    (∀ v rest, sizeVal v ≤ fuel → HeadNotDigit rest →
      parseVal fuel (encodeVal v ++ rest) = some (v, rest)) ∧
    (∀ fs rest, fs ≠ [] → sizeFields fs ≤ fuel →
      parseFields fuel (encodeFields fs ++ '}' :: rest) = some (fs, rest)) ∧
    (∀ es rest, es ≠ [] → sizeElems es ≤ fuel →
      parseElems fuel (encodeElems es ++ ']' :: rest) = some (es, rest)) := by
  intro fuel
  induction fuel with
  | zero =>
    refine ⟨fun v rest hs _ => absurd hs (by have := sizeVal_pos v; omega),
      fun fs rest hne hs => ?_, fun es rest hne hs => ?_⟩
    · cases fs with
      | nil => exact absurd rfl hne
      | cons f fs' =>
        obtain ⟨k, v⟩ := f
        rw [sizeFields] at hs
        exact absurd hs (by have := sizeVal_pos v; omega)
    · cases es with
      | nil => exact absurd rfl hne
      | cons e es' =>
        rw [sizeElems] at hs
        exact absurd hs (by have := sizeVal_pos e; omega)
  | succ fuel ih =>
    obtain ⟨ihv, ihf, ihe⟩ := ih
    refine ⟨?_, ?_, ?_⟩
    · -- values
      intro v rest hs hrest
      cases v with
      | null =>
        rw [encodeVal, parseVal.eq_def]
        simp
      | bool b =>
        cases b <;> (rw [encodeVal, parseVal.eq_def]; simp)
      | str s =>
        rw [encodeVal]
        simp only [List.cons_append, List.append_assoc, List.singleton_append]
        rw [parseVal.eq_def]
        simp [parseStrBody_escape]
      | num n =>
        have hp := parseNum_encodeInt n rest hrest
        by_cases hneg : n < 0
        · rw [encodeInt, if_pos hneg] at hp
          rw [encodeVal, encodeInt, if_pos hneg, List.cons_append, parseVal.eq_def]
          simp only [List.cons_append] at hp
          simp [hp]
        · obtain ⟨d, tl, hd, htl⟩ := natToChars_shape n.natAbs
          obtain ⟨h1, h2, h3, h4, h5, h6⟩ := digitChar_not_special d hd
          rw [encodeInt, if_neg hneg, htl] at hp
          rw [encodeVal, encodeInt, if_neg hneg, htl, List.cons_append, parseVal.eq_def]
          simp only [List.cons_append] at hp
          simp [h1, h2, h3, h4, h5, h6, hp]
      | obj fs =>
        cases fs with
        | nil =>
          rw [encodeVal, encodeFields, parseVal.eq_def]
          simp
        | cons f fs' =>
          obtain ⟨tl, htl⟩ := encodeFields_shape f fs'
          have hsf : sizeFields (f :: fs') ≤ fuel := by
            rw [sizeVal] at hs; omega
          have hfields := ihf (f :: fs') rest (by simp) hsf
          rw [encodeVal, parseVal.eq_def]
          simp only [List.cons_append, List.append_assoc, List.singleton_append]
          rw [htl] at hfields ⊢
          simp only [List.cons_append] at hfields ⊢
          simp [hfields]
      | arr es =>
        cases es with
        | nil =>
          rw [encodeVal, encodeElems, parseVal.eq_def]
          simp
        | cons e es' =>
          obtain ⟨c, tl, hc, hcne⟩ := encodeElems_shape e es'
          have hse : sizeElems (e :: es') ≤ fuel := by
            rw [sizeVal] at hs; omega
          have helems := ihe (e :: es') rest (by simp) hse
          rw [encodeVal, parseVal.eq_def]
          simp only [List.cons_append, List.append_assoc, List.singleton_append]
          rw [hc] at helems ⊢
          simp only [List.cons_append] at helems ⊢
          simp [hcne, helems]
    · -- fields
      intro fs rest hne hs
      cases fs with
      | nil => exact absurd rfl hne
      | cons f fs' =>
        obtain ⟨k, v⟩ := f
        rw [sizeFields] at hs
        cases fs' with
        | nil =>
          have hv := ihv v ('}' :: rest)
            (by omega) (headNotDigit_cons _ _ (by decide))
          rw [encodeFields]
          simp only [List.cons_append, List.append_assoc, List.singleton_append]
          rw [parseFields.eq_def]
          simp [parseStrBody_escape, hv]
        | cons f2 fs'' =>
          have hv := ihv v (',' :: (encodeFields (f2 :: fs'') ++ '}' :: rest))
            (by have := sizeVal_pos v; omega) (headNotDigit_cons _ _ (by decide))
          have hrest2 := ihf (f2 :: fs'') rest (by simp)
            (by have := sizeVal_pos v; omega)
          rw [encodeFields]
          simp only [List.cons_append, List.append_assoc, List.singleton_append]
          rw [parseFields.eq_def]
          simp [parseStrBody_escape, hv, hrest2]
    · -- elements
      intro es rest hne hs
      cases es with
      | nil => exact absurd rfl hne
      | cons e es' =>
        rw [sizeElems] at hs
        cases es' with
        | nil =>
          have hv := ihv e (']' :: rest)
            (by omega) (headNotDigit_cons _ _ (by decide))
          rw [encodeElems, parseElems.eq_def]
          simp [hv]
        | cons e2 es'' =>
          have hv := ihv e (',' :: (encodeElems (e2 :: es'') ++ ']' :: rest))
            (by have := sizeVal_pos e; omega) (headNotDigit_cons _ _ (by decide))
          have hrest2 := ihe (e2 :: es'') rest (by simp)
            (by have := sizeVal_pos e; omega)
          rw [encodeElems]
          simp only [List.cons_append, List.append_assoc, List.singleton_append]
          rw [parseElems.eq_def]
          simp [hv, hrest2]

/-- Reading back the serialized form of any value gives exactly that
value. -/
theorem deserializeJSON_jsonEncode (v : ConfVal) :
    deserializeJSON (jsonEncode v) = some v := by
  have hsize : sizeVal v ≤ (encodeVal v).length + 1 := by
    have := sizeVal_le_length v
    omega
  have hparse := (parse_encode ((encodeVal v).length + 1)).1 v [] hsize trivial
  rw [List.append_nil] at hparse
  show (match parseVal ((encodeVal v).length + 1) (encodeVal v) with
    | some (w, []) => some w
    | _ => none) = some v
  rw [hparse]

/-! ## Splitting serialized properties text back into lines -/


/-- Newline-free text is one line. -/
theorem splitNl_no_newline (l : List Char) (h : '\n' ∉ l) : splitNl l = [l] := by
  induction l with
  | nil => rfl
  | cons c cs ih =>
    have hc : c ≠ '\n' := fun hc => h (by simp [hc])
    simp only [splitNl, if_neg hc, ih (fun hm => h (by simp [hm]))]

/-- Splitting separates a leading newline-free line from the rest. -/
theorem splitNl_append (l : List Char) (cs : List Char) (h : '\n' ∉ l) :
    splitNl (l ++ '\n' :: cs) = l :: splitNl cs := by
  induction l with
  | nil => simp [splitNl]
  | cons c l' ih =>
    have hc : c ≠ '\n' := fun hc => h (by simp [hc])
    rw [List.cons_append]
    simp only [splitNl, if_neg hc, ih (fun hm => h (by simp [hm]))]

/-- Splitting undoes joining for nonempty lists of newline-free lines. -/
theorem splitLines_joinLines : ∀ lines : List String, lines ≠ [] →
    (∀ l ∈ lines, '\n' ∉ l.data) → splitLinesStr (joinLines lines) = lines
  | [], hne, _ => absurd rfl hne
  | [l], _, h => by
    rw [joinLines, splitLinesStr, splitNl_no_newline l.data (h l (by simp))]
    rfl
  | l :: l' :: ls, _, h => by
    have ih := splitLines_joinLines (l' :: ls) (by simp)
      (fun x hx => h x (by simp [hx]))
    rw [joinLines, splitLinesStr]
    rw [String.data_append, String.data_append]
    have hnl : "\n".data = ['\n'] := rfl
    rw [hnl, List.append_assoc, List.singleton_append]
    rw [splitNl_append l.data _ (h l (by simp))]
    rw [List.map_cons]
    rw [splitLinesStr] at ih
    rw [ih]

/-! ## Subscriber state lemmas -/

/-- A successful reload swaps in the new value and fires the listeners. -/
theorem handleConfigChange_ok (s : Subscriber) (v : String)
    (h : loadValue s.conf s.cache = .ok v) :
    s.handleConfigChange = ({ s with value := some v }, s.listeners) := by
  rw [Subscriber.handleConfigChange, h]

/-- A failed reload leaves the state untouched and fires nothing. -/
theorem handleConfigChange_err (s : Subscriber) (e : SubErr)
    (h : loadValue s.conf s.cache = .error e) :
    s.handleConfigChange = (s, []) := by
  rw [Subscriber.handleConfigChange, h]

/-- No event changes the configuration. -/
theorem applyOp_conf (s : Subscriber) (op : SubOp) : (applyOp s op).conf = s.conf := by
  cases op with
  | change c =>
    rw [applyOp]
    rcases h : loadValue (s.setCache c).conf (s.setCache c).cache with e | v
    · rw [handleConfigChange_err _ _ h]
      rfl
    · rw [handleConfigChange_ok _ _ h]
      rfl
  | addListener id => rfl

/-- No event run changes the configuration. -/
theorem runOps_conf (ops : List SubOp) : ∀ s : Subscriber, (runOps s ops).conf = s.conf := by
  induction ops with
  | nil => intro s; rfl
  | cons op ops ih =>
    intro s
    rw [runOps, List.foldl_cons]
    rw [show List.foldl applyOp (applyOp s op) ops = runOps (applyOp s op) ops from rfl]
    rw [ih (applyOp s op), applyOp_conf]

/-- Once the stored value is present, no event removes it. -/
theorem applyOp_isSome (s : Subscriber) (op : SubOp) (h : s.value.isSome = true) :
    ((applyOp s op).value).isSome = true := by
  cases op with
  | change c =>
    rw [applyOp]
    rcases hl : loadValue (s.setCache c).conf (s.setCache c).cache with e | v
    · rw [handleConfigChange_err _ _ hl]; exact h
    · rw [handleConfigChange_ok _ _ hl]; rfl
  | addListener id => exact h

/-- Once the stored value is present, no event run removes it. -/
theorem runOps_isSome (ops : List SubOp) : ∀ s : Subscriber, s.value.isSome = true →
    ((runOps s ops).value).isSome = true := by
  induction ops with
  | nil => intro s h; exact h
  | cons op ops ih =>
    intro s h
    rw [runOps, List.foldl_cons]
    exact ih (applyOp s op) (applyOp_isSome s op h)

/-- Registering listeners appends them in order and touches nothing else. -/
theorem runOps_addListeners (ids : List Nat) : ∀ s : Subscriber,
    runOps s (ids.map SubOp.addListener)
      = { s with listeners := s.listeners ++ ids } := by
  induction ids with
  | nil => intro s; simp [runOps]
  | cons id ids ih =>
    intro s
    rw [List.map_cons, runOps, List.foldl_cons]
    rw [show List.foldl applyOp (applyOp s (SubOp.addListener id)) (ids.map SubOp.addListener)
      = runOps (applyOp s (SubOp.addListener id)) (ids.map SubOp.addListener) from rfl]
    rw [ih]
    rw [applyOp, Subscriber.AddListener]
    simp

/-! ## Claim theorems -/

/-- Background extraction never produces a `ConfigInvalid` error: its only
failure is a missing single-mode key. -/
theorem loadValue_ne_configInvalid (conf : ApolloConf) (cache : Cache) :
    loadValue conf cache ≠ Except.error SubErr.configInvalid := by
  rw [loadValue]
  split_ifs with h
  · cases cache.get conf.key <;> simp
  · simp

/-- C2: for every namespace-mode snapshot `S`, parsing the string produced
by serializing `S` with format "json" yields back exactly `S`'s mapping —
every key of `S` present with the same value and no extra keys (the reader
returns the identical field list). -/
theorem json_serialize_round_trip (S : Snapshot) :
    deserializeJSON (serializeSnapshot "json" S) = some (ConfVal.obj S) := by
  rw [serializeSnapshot, if_neg (by decide), if_neg (by decide)]
  exact deserializeJSON_jsonEncode (ConfVal.obj S)

/-- C6: `Validate` (and with it construction) reports `ConfigInvalid`
exactly when a required identity/address field — AppID or MetaAddr — is
empty; a configuration with both non-empty passes validation. -/
theorem validate_configInvalid_iff (c : ApolloConf) :
    (c.Validate = Except.error SubErr.configInvalid ↔ (c.appID = "" ∨ c.metaAddr = ""))
    ∧ (c.Validate = Except.ok () ↔ (c.appID ≠ "" ∧ c.metaAddr ≠ ""))
    ∧ ∀ cache : Cache,
      (newApolloSubscriber c cache).isOk = true → c.appID ≠ "" ∧ c.metaAddr ≠ "" := by
  refine ⟨?_, ?_, ?_⟩
  · rw [ApolloConf.Validate]
    split_ifs with h1 h2 <;> simp_all
  · rw [ApolloConf.Validate]
    split_ifs with h1 h2 <;> simp_all
  · intro cache hok
    rw [newApolloSubscriber] at hok
    by_contra hc
    have hv : c.Validate = Except.error SubErr.configInvalid := by
      rw [ApolloConf.Validate]
      split_ifs with h1 h2 <;> simp_all
    rw [hv] at hok
    simp [Except.isOk, Except.toBool] at hok

/-- C8: the scalar coercion maps nil/absent to the empty string, a string
to itself unchanged and unquoted, a number or boolean to its canonical
literal text, and a nested mapping or sequence to its JSON-encoded form —
including the concrete vectors of `TestToString`. -/
theorem toString_scalar_coercion :
    toString ConfVal.null = ""
    ∧ (∀ s, toString (ConfVal.str s) = s)
    ∧ (∀ n, toString (ConfVal.num n) = String.mk (encodeInt n))
    ∧ toString (ConfVal.bool true) = "true"
    ∧ toString (ConfVal.bool false) = "false"
    ∧ (∀ fs, toString (ConfVal.obj fs) = jsonEncode (ConfVal.obj fs))
    ∧ (∀ es, toString (ConfVal.arr es) = jsonEncode (ConfVal.arr es))
    ∧ toString (ConfVal.num 123) = "123"
    ∧ toString (ConfVal.num (-7)) = "-7"
    ∧ toString (ConfVal.str "test") = "test"
    ∧ toString (ConfVal.str "") = ""
    ∧ toString (ConfVal.bool true) = "true"
    ∧ toString (ConfVal.obj [("key", ConfVal.str "value")]) = "\x7b\"key\":\"value\"\x7d" := by
  refine ⟨rfl, fun s => rfl, fun n => rfl, rfl, rfl, fun fs => rfl, fun es => rfl,
    by decide, by decide, rfl, rfl, rfl, by decide⟩

/-- C10: `buildApolloConfig` forwards AppID, Cluster, NamespaceName,
Secret, IsBackupConfig, BackupPath and MustStart unchanged and sets the
client address to IP when IP is non-empty and to MetaAddr otherwise,
including the concrete vectors of the `TestBuildApolloConfig` tests. -/
theorem buildApolloConfig_forwards (c : ApolloConf) :
    (buildApolloConfig c).appID = c.appID
    ∧ (buildApolloConfig c).cluster = c.cluster
    ∧ (buildApolloConfig c).namespaceName = c.namespaceName
    ∧ (buildApolloConfig c).secret = c.secret
    ∧ (buildApolloConfig c).isBackupConfig = c.isBackupConfig
    ∧ (buildApolloConfig c).backupConfigPath = c.backupPath
    ∧ (buildApolloConfig c).mustStart = c.mustStart
    ∧ (buildApolloConfig c).ip = (if c.ip = "" then c.metaAddr else c.ip)
    ∧ (buildApolloConfig { emptyConf with
        appID := "test-app", metaAddr := "http://localhost:8080",
        ip := "192.168.1.100" }).ip = "192.168.1.100"
    ∧ (buildApolloConfig { emptyConf with
        appID := "test-app", metaAddr := "http://localhost:8080" }).ip
      = "http://localhost:8080" := by
  refine ⟨rfl, rfl, rfl, rfl, rfl, rfl, rfl, rfl, by decide, by decide⟩

/-- C5: in single-key mode with the key absent from the cache at
extraction time, `loadValue` returns `KeyNotFound` and substitutes no
default, and construction with such a configuration fails. -/
theorem single_key_absent_fails (conf : ApolloConf) (cache : Cache)
    (hkey : conf.key ≠ "") (habs : cache.get conf.key = none) :
    loadValue conf cache = Except.error SubErr.keyNotFound
    ∧ ∀ s, newApolloSubscriber conf cache ≠ Except.ok s := by
  have hl : loadValue conf cache = Except.error SubErr.keyNotFound := by
    rw [loadValue, if_pos hkey, habs]
  refine ⟨hl, fun s hok => ?_⟩
  rw [newApolloSubscriber] at hok
  rcases hv : conf.Validate with e | u
  · rw [hv] at hok
    exact Except.noConfusion hok
  · rw [hv, hl] at hok
    exact Except.noConfusion hok

/-- Witness for C5 at the key of `TestApolloSubscriber_LoadValue_KeyNotFound`
against an empty cache. -/
theorem single_key_absent_fails_witness :
    loadValue missingKeyConf [] = Except.error SubErr.keyNotFound
    ∧ ∀ s, newApolloSubscriber missingKeyConf [] ≠ Except.ok s :=
  single_key_absent_fails missingKeyConf [] (by decide) rfl

/-- C3: a reload that fails during extraction or serialization leaves the
stored SerializedValue exactly as it was, a later `Value()` returns that
previous value with no error, and no listener fires. -/
theorem reload_failure_retains_value (s : Subscriber) (c : Cache) (v : String) (e : SubErr)
    (hprev : s.value = some v) (hfail : loadValue s.conf c = Except.error e) :
    ((s.setCache c).handleConfigChange).1.value = s.value
    ∧ ((s.setCache c).handleConfigChange).1.Value = Except.ok v
    ∧ ((s.setCache c).handleConfigChange).2 = [] := by
  have hfail' : loadValue (s.setCache c).conf (s.setCache c).cache = Except.error e := hfail
  rw [handleConfigChange_err _ _ hfail']
  exact ⟨rfl, by simp [Subscriber.Value, Subscriber.setCache, hprev], rfl⟩

/-- Witness for C3: a single-key subscriber holding a value whose key
disappears from the store. -/
theorem reload_failure_retains_value_witness :
    ((Subscriber.mk missingKeyConf [] (some "old") []).setCache
        []).handleConfigChange.1.value = some "old"
    ∧ ((Subscriber.mk missingKeyConf [] (some "old") []).setCache
        []).handleConfigChange.1.Value = Except.ok "old"
    ∧ ((Subscriber.mk missingKeyConf [] (some "old") []).setCache
        []).handleConfigChange.2 = [] :=
  reload_failure_retains_value (Subscriber.mk missingKeyConf [] (some "old") [])
    [] "old" SubErr.keyNotFound rfl rfl

/-- C4: once any load has succeeded (the stored value is present), every
subsequent `Value()` call returns a string without error, whatever mix of
failed or successful reloads and listener registrations follows. -/
theorem value_ok_forever (s : Subscriber) (ops : List SubOp)
    (h : s.value.isSome = true) :
    ∃ v, (runOps s ops).Value = Except.ok v := by
  have hs := runOps_isSome ops s h
  obtain ⟨v, hv⟩ := Option.isSome_iff_exists.mp hs
  exact ⟨v, by simp [Subscriber.Value, hv]⟩

/-- Witness for C4: a subscriber that has loaded once survives two failed
reloads and a listener registration. -/
theorem value_ok_forever_witness :
    ∃ v, (runOps (Subscriber.mk missingKeyConf [] (some "old") [])
      [SubOp.change [], SubOp.addListener 0, SubOp.change []]).Value = Except.ok v :=
  value_ok_forever (Subscriber.mk missingKeyConf [] (some "old") [])
    [SubOp.change [], SubOp.addListener 0, SubOp.change []] rfl


/-- Running a sequence of change notifications whose reloads all succeed
stores the serialization of the last cache state. -/
theorem runChanges_last : ∀ (cs : List Cache) (s : Subscriber) (clast : Cache) (vN : String),
    (∀ c ∈ cs, (loadValue s.conf c).isOk = true) →
    loadValue s.conf clast = Except.ok vN →
    (runOps s ((cs ++ [clast]).map SubOp.change)).value = some vN
  | [], s, clast, vN, _, hlast => by
    simp only [List.nil_append, List.map_cons, List.map_nil, runOps, List.foldl_cons,
      List.foldl_nil, applyOp]
    have h : loadValue (s.setCache clast).conf (s.setCache clast).cache = Except.ok vN := hlast
    rw [handleConfigChange_ok _ _ h]
  | c :: cs, s, clast, vN, hall, hlast => by
    have hconf : (applyOp s (SubOp.change c)).conf = s.conf := applyOp_conf s _
    have ih := runChanges_last cs (applyOp s (SubOp.change c)) clast vN
      (by rw [hconf]; exact fun c' hc' => hall c' (by simp [hc'])) (by rw [hconf]; exact hlast)
    simp only [List.cons_append, List.map_cons, runOps, List.foldl_cons]
    exact ih

/-- C1: after a sequence of change notifications, each followed by a
successful extraction + serialization, `Value()` returns exactly the
serialization of the latest store snapshot; the state holds no earlier
serialized value. -/
theorem value_reflects_latest_snapshot (s : Subscriber) (cs : List Cache) (clast : Cache)
    (vN : String) (hall : ∀ c ∈ cs, (loadValue s.conf c).isOk = true)
    (hlast : loadValue s.conf clast = Except.ok vN) :
    (runOps s ((cs ++ [clast]).map SubOp.change)).Value = Except.ok vN
    ∧ (runOps s ((cs ++ [clast]).map SubOp.change)).value = some vN := by
  have h := runChanges_last cs s clast vN hall hlast
  exact ⟨by simp only [Subscriber.Value, h], h⟩

/-- Witness for C1: the hot-reload scenario of the integration test, two
notifications with the snapshot changing in between. -/
theorem value_reflects_latest_snapshot_witness :
    (runOps (Subscriber.mk jsonConf cacheBefore none [])
        (([cacheBefore] ++ [cacheAfter]).map SubOp.change)).Value
      = Except.ok "\x7b\"feature.enabled\":false,\"feature.new\":\"added\"\x7d"
    ∧ (runOps (Subscriber.mk jsonConf cacheBefore none [])
        (([cacheBefore] ++ [cacheAfter]).map SubOp.change)).value
      = some "\x7b\"feature.enabled\":false,\"feature.new\":\"added\"\x7d" :=
  value_reflects_latest_snapshot (Subscriber.mk jsonConf cacheBefore none [])
    [cacheBefore] cacheAfter "\x7b\"feature.enabled\":false,\"feature.new\":\"added\"\x7d"
    (by decide) rfl

/-- C7: `AddListener` called k times followed by one change notification
whose reload succeeds invokes exactly the k registered callbacks, each
exactly once, in registration order. -/
theorem listeners_fire_in_order (s : Subscriber) (ids : List Nat) (c : Cache) (v : String)
    (h0 : s.listeners = []) (hok : loadValue s.conf c = Except.ok v) :
    (((runOps s (ids.map SubOp.addListener)).setCache c).handleConfigChange).2 = ids := by
  rw [runOps_addListeners, h0, List.nil_append]
  have h : loadValue (({ s with listeners := ids } : Subscriber).setCache c).conf
      (({ s with listeners := ids } : Subscriber).setCache c).cache = Except.ok v := hok
  rw [handleConfigChange_ok _ _ h]
  rfl

/-- Witness for C7: three listeners, one successful change, invocations
`[0, 1, 2]`. -/
theorem listeners_fire_in_order_witness :
    (((runOps (Subscriber.mk jsonConf cacheBefore (some "init") [])
        ([0, 1, 2].map SubOp.addListener)).setCache cacheAfter).handleConfigChange).2
      = [0, 1, 2] :=
  listeners_fire_in_order (Subscriber.mk jsonConf cacheBefore (some "init") [])
    [0, 1, 2] cacheAfter "\x7b\"feature.enabled\":false,\"feature.new\":\"added\"\x7d" rfl rfl

/-- C9: the properties serialization of a namespace snapshot consists of
exactly one `key=value` line per key/value pair (value rendered by the
scalar coercion): splitting the output at newlines gives back precisely
the rendered pairs, one line each (line order carries no contract). -/
theorem properties_one_line_per_pair (S : Snapshot) (hne : S ≠ [])
    (h : ∀ p ∈ S, '\n' ∉ p.1.data ∧ '\n' ∉ (toString p.2).data) :
    splitLinesStr (serializeProperties S)
      = S.map (fun p => p.1 ++ "=" ++ toString p.2)
    ∧ (splitLinesStr (serializeProperties S)).length = S.length := by
  have heq : "=".data = ['='] := rfl
  have hlines : splitLinesStr (serializeProperties S) = propertiesLines S := by
    rw [serializeProperties]
    apply splitLines_joinLines
    · rw [propertiesLines]
      simpa using hne
    · intro l hl
      rw [propertiesLines] at hl
      obtain ⟨p, hp, rfl⟩ := List.mem_map.mp hl
      have hp' := h p hp
      rw [String.data_append, String.data_append, heq]
      simp only [List.mem_append, List.mem_singleton]
      push_neg
      exact ⟨⟨hp'.1, by decide⟩, hp'.2⟩
  constructor
  · rw [hlines, propertiesLines]
  · rw [hlines, propertiesLines, List.length_map]

/-- Witness for C9: the snapshot of the properties-format test yields one
line per pair. -/
theorem properties_one_line_per_pair_witness :
    splitLinesStr (serializeProperties propsCache)
      = ["server.port=8080", "server.host=localhost"]
    ∧ (splitLinesStr (serializeProperties propsCache)).length = 2 := by
  have h := properties_one_line_per_pair propsCache (by simp [propsCache]) (by decide)
  exact ⟨h.1.trans (by decide), h.2.trans (by decide)⟩

/-- Witness for C6: the empty configuration is rejected as invalid, and
the test's valid configuration passes. -/
theorem validate_configInvalid_iff_witness :
    emptyConf.Validate = Except.error SubErr.configInvalid
    ∧ (validConf.Validate = Except.ok ()) :=
  ⟨(validate_configInvalid_iff emptyConf).1.mpr (Or.inl rfl),
   (validate_configInvalid_iff _).2.1.mpr ⟨by decide, by decide⟩⟩

end ZeroApollo
